import Mathlib

/-!
Verification of the progress pipeline of `mp4amp3.py`, a batch MP4→MP3
converter driving an external transcoder.  The core of the program —
the duration probe `ffprobe_duration_seconds`, the progress
parser/runner `run_ffmpeg_with_progress`, the batch loop `convert_all`
and the event consumer `App.handle_msg` — is embedded shallowly below.
Real numbers carried by the program as Python floats are modelled as
rationals (`ℚ`); the subprocess boundary (whether the tool launched,
its exit status, the text captured on its pipes) is passed in as data.
-/

namespace Mp4amp3

/-- Messages placed on the queue `q` by the worker, exactly the tuples
the Python code `q.put`s (UI-only fields omitted nowhere: each payload
field of the tuple is a field of the constructor). -/
inductive Msg where
  | file_progress (pct : ℚ) (out_time_s : ℚ) (speed : Option String) (eta : Option ℚ)
  | speed (s : String)
  | file_done (ok : Bool) (err : String)
  | new_file (idx : Nat) (total : Nat) (name : String)
  | all_done
deriving Repr, DecidableEq

/-- ASCII whitespace, the characters Python `str.strip()` removes
(restricted to the ASCII range, which is all that appears on the
progress pipe). -/
def isSpaceChar (c : Char) : Bool :=
  c = ' ' ∨ c = '\t' ∨ c = '\n' ∨ c = '\r' ∨ c = '\x0b' ∨ c = '\x0c'

/-- Python `s.strip()`: drop whitespace from both ends. -/
def pstrip (s : String) : String :=
  ⟨((s.data.dropWhile isSpaceChar).reverse.dropWhile isSpaceChar).reverse⟩

/-- Split off a leading sign, as Python numeric literals allow. -/
def splitSign : List Char → Bool × List Char
  | '-' :: r => (true, r)
  | '+' :: r => (false, r)
  | r => (false, r)

/-- Value of a digit string, most significant first. -/
def digitsToNat (l : List Char) : Nat :=
  l.foldl (fun a c => a * 10 + (c.toNat - 48)) 0

/-- Python `int(s)` on an already-stripped string: optional sign then a
nonempty run of digits; anything else raises `ValueError`, modelled as
`none`. -/
def parse_int (s : String) : Option Int :=
  let p := splitSign s.data
  if p.2 ≠ [] ∧ p.2.all Char.isDigit then
    some (if p.1 then -(digitsToNat p.2 : Int) else (digitsToNat p.2 : Int))
  else none

/-- Exponent suffix of a Python float literal: empty (exponent 0) or
`e`/`E`, optional sign, digits.  Any other leftover text is a parse
failure. -/
def parseExpSuffix : List Char → Option Int
  | [] => some 0
  | c :: r =>
    if c = 'e' ∨ c = 'E' then
      let p := splitSign r
      if p.2 ≠ [] ∧ p.2.all Char.isDigit then
        some (if p.1 then -(digitsToNat p.2 : Int) else (digitsToNat p.2 : Int))
      else none
    else none

/-- Scale a mantissa by a signed power of ten. -/
def applyExp (m : ℚ) (e : Int) : ℚ :=
  if 0 ≤ e then m * (10 : ℚ) ^ e.toNat else m / (10 : ℚ) ^ (-e).toNat

/-- Python `float(s)` on an already-stripped string, restricted to
finite decimal literals: optional sign, digits, optional `.` and
fractional digits (at least one digit overall), optional exponent.
`inf`/`nan` spellings are outside the rational model.  Failure
(`ValueError`) is `none`. -/
def parse_float (s : String) : Option ℚ :=
  let p := splitSign s.data
  let intPart := p.2.takeWhile Char.isDigit
  let rest1 := p.2.drop intPart.length
  let fracPart :=
    match rest1 with
    | '.' :: r => r.takeWhile Char.isDigit
    | _ => []
  let rest2 :=
    match rest1 with
    | '.' :: r => r.drop (r.takeWhile Char.isDigit).length
    | _ => rest1
  if intPart = [] ∧ fracPart = [] then none
  else
    match parseExpSuffix rest2 with
    | none => none
    | some e =>
      let mant : ℚ := (digitsToNat (intPart ++ fracPart) : ℚ) / ((10 : ℚ) ^ fracPart.length)
      let v := applyExp mant e
      some (if p.1 then -v else v)

/-- `ffprobe_duration_seconds` (mp4amp3.py lines 12–22).  The
subprocess boundary is data: `launched` is whether `subprocess.run`
returned without raising, `rc` the tool's exit status, `stdoutText`
the captured standard output.  The body is
`return float(r.stdout.strip())` inside `try/except: return 0.0` —
note the exit status `rc` is never consulted. -/
def ffprobe_duration_seconds (launched : Bool) (rc : Int) (stdoutText : String) : ℚ :=
  if launched then
    match parse_float (pstrip stdoutText) with
    | some v => v
    | none => 0
  else 0

/-- Mutable locals of the read loop of `run_ffmpeg_with_progress`:
`last_out_time` (line 58) and `last_speed` (line 59). -/
structure ParserState where
  last_out_time : ℚ
  last_speed : Option String
deriving Repr, DecidableEq

/-- Python `line.split("=", 1)` on the character list: text before the
first `=` and text after it. -/
def splitEq : List Char → List Char × List Char
  | [] => ([], [])
  | c :: r =>
    if c = '=' then ([], r)
    else
      let p := splitEq r
      (c :: p.1, p.2)

/-- Lines 63–69: strip the line, skip it when blank or without `=`,
else split at the first `=` and strip key and value. -/
def parseLine (rawLine : String) : Option (String × String) :=
  let line := pstrip rawLine
  if line = "" ∨ line.data.contains '=' = false then none
  else
    let p := splitEq line.data
    some (pstrip ⟨p.1⟩, pstrip ⟨p.2⟩)

/-- Lines 71–99: dispatch on the key.  `out_time_ms` (treated as
microseconds, line 77) updates `last_out_time` — keeping the previous
value on parse failure — and emits a `file_progress` message whose
percentage/ETA need a known duration; `speed` stores the token and
emits a `speed` message; `progress=end` breaks the loop (the `Bool`
component); everything else is ignored. -/
def stepKV (duration : Option ℚ) (st : ParserState) (kv : String × String) :
    ParserState × List Msg × Bool :=
  let key := kv.1
  let value := kv.2
  if key = "out_time_ms" then
    let out_time_s :=
      match parse_int value with
      | some n => (n : ℚ) / 1000000
      | none => st.last_out_time
    let st' : ParserState := { last_out_time := out_time_s, last_speed := st.last_speed }
    match duration with
    | some d =>
      (st',
       [Msg.file_progress (max 0 (min 1 (out_time_s / d)) * 100) out_time_s
          st.last_speed (some (max 0 (d - out_time_s)))],
       false)
    | none =>
      (st', [Msg.file_progress 0 out_time_s st.last_speed none], false)
  else if key = "speed" then
    ({ st with last_speed := some value }, [Msg.speed value], false)
  else if key = "progress" ∧ value = "end" then
    (st, [], true)
  else
    (st, [], false)

/-- One iteration of the `for line in p.stdout` loop body. -/
def processLine (duration : Option ℚ) (st : ParserState) (rawLine : String) :
    ParserState × List Msg × Bool :=
  match parseLine rawLine with
  | none => (st, [], false)
  | some kv => stepKV duration st kv

/-- The read loop (lines 61–99): process lines in order, stopping at
the first line whose processing breaks (`progress=end`); later lines
are not consumed. -/
def runLines (duration : Option ℚ) : ParserState → List String → ParserState × List Msg
  | st, [] => (st, [])
  | st, l :: ls =>
    let r := processLine duration st l
    if r.2.2 then (r.1, r.2.1)
    else
      let rest := runLines duration r.1 ls
      (rest.1, r.2.1 ++ rest.2)

/-- Lines 30–33: a probed duration ≤ 0 becomes `None` (no real
percentage possible). -/
def durationOpt (probed : ℚ) : Option ℚ :=
  if probed ≤ 0 then none else some probed

/-- Python `err.strip()[:800]` — at most 800 characters of the
stripped diagnostic output. -/
def excerpt (s : String) : String :=
  ⟨(pstrip s).data.take 800⟩

/-- `run_ffmpeg_with_progress` (lines 24–107) for a run whose child
process launched: the messages put on `q` given the probed duration,
the lines of the child's progress pipe, its exit status and its
captured stderr.  After the loop, exactly one terminal `file_done` is
emitted: success iff the exit status is 0, else failure with the
bounded stderr excerpt.  Caveat: `subprocess.Popen` (line 49) sits
outside the `try` that begins at line 61, so a launch failure raises
out of the function with no event emitted at all — that path is
modelled separately by `run_ffmpeg_launch_failed` and
`convert_all_crash` below. -/
def run_ffmpeg_with_progress (probed : ℚ) (ls : List String) (rc : Int)
    (stderrText : String) : List Msg :=
  let r := runLines (durationOpt probed) ⟨0, none⟩ ls
  r.2 ++ [if rc = 0 then Msg.file_done true "" else Msg.file_done false (excerpt stderrText)]

/-- Lines 109–114, exception path: an exception with text `e`
interrupts the loop after `consumed` lines; the child is killed
(recorded by the `Bool`, always `true`: `p.kill()` is attempted) and a
failure terminal carrying `str(e)` is emitted. -/
def run_ffmpeg_with_progress_exn (probed : ℚ) (consumed : List String) (e : String) :
    List Msg × Bool :=
  let r := runLines (durationOpt probed) ⟨0, none⟩ consumed
  (r.2 ++ [Msg.file_done false e], true)

/-- One batch job as the worker sees it: the file's display name plus
the data of the subprocess boundary for its conversion (probed
duration, progress-pipe lines, exit status, captured stderr). -/
structure Job where
  name : String
  probed : ℚ
  lines : List String
  rc : Int
  stderrText : String
deriving Repr, DecidableEq

/-- Events one loop iteration of `convert_all` puts on `q` for job
number `idx` (1-based, line 231): the `new_file` notification
(line 239) followed by everything `run_ffmpeg_with_progress` emits
(line 241). -/
def jobEvents (total idx : Nat) (j : Job) : List Msg :=
  Msg.new_file idx total j.name :: run_ffmpeg_with_progress j.probed j.lines j.rc j.stderrText

/-- The shared cancellation flag, polled at the top of each loop
iteration (line 232).  `cancelAt = some k` means the user's cancel
request lands after `k` jobs have finished and before job `k+1`
starts, so the flag reads true from 0-based iteration `k` on;
`none` means the run is never cancelled. -/
def cancelledAt (cancelAt : Option Nat) (i : Nat) : Bool :=
  match cancelAt with
  | none => false
  | some k => k ≤ i

/-- The `for idx, infile in enumerate(self.files, start=1)` loop of
`convert_all` (lines 230–244): at 0-based iteration `i`, break if the
cancel flag is set, else emit the job's events and continue. -/
def convertLoop (total : Nat) (cancelAt : Option Nat) : Nat → List Job → List Msg
  | _, [] => []
  | i, j :: rest =>
    if cancelledAt cancelAt i then []
    else jobEvents total (i + 1) j ++ convertLoop total cancelAt (i + 1) rest

/-- `App.convert_all` (lines 230–245) for an exception-free run: run
the loop over the selected files, then put the single `all_done`
event.  Caveat: the worker loop has no exception handling, so a
launch failure propagating out of `run_ffmpeg_with_progress` kills
the worker before the `all_done` put at line 245 — that path is
modelled separately by `convert_all_crash` below. -/
def convert_all (jobs : List Job) (cancelAt : Option Nat) : List Msg :=
  convertLoop jobs.length cancelAt 0 jobs ++ [Msg.all_done]

/-- Launch failure (the spec's LaunchFailure): `subprocess.Popen`
(line 49) is outside the `try` of line 61, so when the transcoder
cannot be started the exception propagates out of
`run_ffmpeg_with_progress` right after the duration probe — no event
at all is put on the queue for that job. -/
def run_ffmpeg_launch_failed : List Msg := []

/-- A batch run in which job number `f` (0-based) fails to launch:
jobs before `f` run normally; job `f`'s `new_file` is put (line 239),
then `Popen` raises inside `run_ffmpeg_with_progress` and the
exception propagates — `convert_all` (lines 230–245) has no handler —
so the worker thread dies: no terminal event for job `f`, no later
job, and the `all_done` put at line 245 is never reached. -/
def convertCrashLoop (total : Nat) (f : Nat) : Nat → List Job → List Msg
  | _, [] => []
  | i, j :: rest =>
    if i = f then Msg.new_file (i + 1) total j.name :: run_ffmpeg_launch_failed
    else jobEvents total (i + 1) j ++ convertCrashLoop total f (i + 1) rest

/-- The full event list of a run whose job `f` fails to launch: the
worker dies mid-loop, so nothing follows the truncated loop — in
particular no `all_done`. -/
def convert_all_crash (jobs : List Job) (f : Nat) : List Msg :=
  convertCrashLoop jobs.length f 0 jobs

/-- The `App` fields `handle_msg` touches (lines 177–183): batch
counters, the current job's latest percentage and speed, and the
accumulated error messages. -/
structure AppState where
  total_count : Nat
  done_count : Nat
  current_pct : ℚ
  current_speed : Option String
  errors : List String
deriving Repr, DecidableEq

/-- State set up by `start_flow` for a batch of `n` files
(lines 204–208). -/
def initApp (n : Nat) : AppState :=
  { total_count := n, done_count := 0, current_pct := 0, current_speed := none, errors := [] }

/-- `App.handle_msg` (lines 257–323), restricted to the state fields
and to the aggregate progress value it writes to the total progress
bar: the second component is `some total_pct` exactly when the branch
updates `pb_total` (the `file_progress` and `file_done` branches),
with `total_pct` the percentage the code computes there. -/
def handle_msg (st : AppState) (m : Msg) : AppState × Option ℚ :=
  match m with
  | Msg.new_file _ _ _ =>
    ({ st with current_pct := 0, current_speed := none }, none)
  | Msg.file_progress pct _ _ _ =>
    let total_frac : ℚ := ((st.done_count : ℚ) + pct / 100) / ((max 1 st.total_count : Nat) : ℚ)
    ({ st with current_pct := pct }, some (total_frac * 100))
  | Msg.speed s =>
    ({ st with current_speed := some s }, none)
  | Msg.file_done ok err =>
    let st' := { st with
      done_count := st.done_count + 1,
      errors := if ok then st.errors else st.errors ++ [if err = "" then "Error desconocido" else err] }
    let total_frac : ℚ := ((st'.done_count : ℚ)) / ((max 1 st'.total_count : Nat) : ℚ)
    (st', some (total_frac * 100))
  | Msg.all_done => (st, none)

/-- Fold `handle_msg` over an event list (the `poll_queue` loop,
lines 247–255, which drains `q` in FIFO order), collecting the
successive aggregate progress values written to the total bar. -/
def runApp : AppState → List Msg → AppState × List ℚ
  | st, [] => (st, [])
  | st, m :: ms =>
    let r := handle_msg st m
    let rest := runApp r.1 ms
    (rest.1, r.2.toList ++ rest.2)

/-- Recognise a terminal `file_done` event. -/
def isDone : Msg → Bool
  | Msg.file_done _ _ => true
  | _ => false

/-- Recognise a `new_file` event. -/
def isNewFile : Msg → Bool
  | Msg.new_file _ _ _ => true
  | _ => false

/-- Recognise the in-flight events of a job: progress samples and
speed updates. -/
def isProgressOrSpeed : Msg → Bool
  | Msg.file_progress _ _ _ _ => true
  | Msg.speed _ => true
  | _ => false

/-- The percentages carried by the `file_progress` events of a list,
in order. -/
def progressPcts (ms : List Msg) : List ℚ :=
  ms.filterMap fun m =>
    match m with
    | Msg.file_progress pct _ _ _ => some pct
    | _ => none

/-! ### Helper lemmas -/

/-- Membership in `getLast?` gives membership in the list. -/
theorem mem_of_getLast?_eq {α : Type} {l : List α} {a : α} (h : l.getLast? = some a) :
    a ∈ l := by
  have hm : a ∈ l.getLast? := by rw [h]; rfl
  obtain ⟨hne, rfl⟩ := List.mem_getLast?_eq_getLast hm
  exact List.getLast_mem hne

/-- A probed duration > 0 is kept. -/
theorem durationOpt_pos {p : ℚ} (hp : 0 < p) : durationOpt p = some p := by
  unfold durationOpt
  rw [if_neg (not_le.mpr hp)]

/-- A probed duration ≤ 0 becomes unknown. -/
theorem durationOpt_nonpos {p : ℚ} (hp : p ≤ 0) : durationOpt p = none := by
  unfold durationOpt
  rw [if_pos hp]

/-- `stepKV` on the `out_time_ms` key with a parseable value: the new
elapsed time is `n / 1,000,000` seconds and one progress message goes
out, percentage and ETA depending on whether the duration is known. -/
theorem stepKV_out_time_parsed (d : Option ℚ) (st : ParserState) (v : String) (n : Int)
    (hv : parse_int v = some n) :
    stepKV d st ("out_time_ms", v) =
      (⟨(n : ℚ) / 1000000, st.last_speed⟩,
       (match d with
        | some dd =>
          [Msg.file_progress (max 0 (min 1 (((n : ℚ) / 1000000) / dd)) * 100) ((n : ℚ) / 1000000)
             st.last_speed (some (max 0 (dd - (n : ℚ) / 1000000)))]
        | none => [Msg.file_progress 0 ((n : ℚ) / 1000000) st.last_speed none]),
       false) := by
  unfold stepKV
  rw [if_pos rfl]
  simp only [hv]
  cases d <;> rfl

/-- `stepKV` on the `out_time_ms` key with an unparseable value: the
elapsed time is retained and the emitted progress message carries the
retained value. -/
theorem stepKV_out_time_failed (d : Option ℚ) (st : ParserState) (v : String)
    (hv : parse_int v = none) :
    stepKV d st ("out_time_ms", v) =
      (⟨st.last_out_time, st.last_speed⟩,
       (match d with
        | some dd =>
          [Msg.file_progress (max 0 (min 1 (st.last_out_time / dd)) * 100) st.last_out_time
             st.last_speed (some (max 0 (dd - st.last_out_time)))]
        | none => [Msg.file_progress 0 st.last_out_time st.last_speed none]),
       false) := by
  unfold stepKV
  rw [if_pos rfl]
  simp only [hv]
  cases d <;> rfl

/-- A line the stripped form of which parses as a key/value pair is
handled by the key dispatch. -/
theorem processLine_some (d : Option ℚ) (st : ParserState) (raw : String)
    (kv : String × String) (h : parseLine raw = some kv) :
    processLine d st raw = stepKV d st kv := by
  unfold processLine
  rw [h]

/-- A line that does not parse is skipped: no state change, no
message, no break. -/
theorem processLine_none (d : Option ℚ) (st : ParserState) (raw : String)
    (h : parseLine raw = none) :
    processLine d st raw = (st, [], false) := by
  unfold processLine
  rw [h]

/-! ### C1 -/

/-- C1: for a progress line whose stripped form splits as
`out_time_ms = v` with `v` parsing as the integer `n`, when the probed
duration `pd` is known and positive, the emitted file-progress event
carries the fraction `clamp((n / 1,000,000) / pd, 0, 1)` — stored, as
the code does, scaled by 100 as a percentage — and the ETA
`max(0, pd − n / 1,000,000)` seconds: the value is treated as
microseconds. -/
theorem C1_out_time_progress (st : ParserState) (pd : ℚ) (raw v : String) (n : Int)
    (hd : 0 < pd)
    (hline : parseLine raw = some ("out_time_ms", v))
    (hv : parse_int v = some n) :
    processLine (durationOpt pd) st raw =
      (⟨(n : ℚ) / 1000000, st.last_speed⟩,
       [Msg.file_progress (max 0 (min 1 (((n : ℚ) / 1000000) / pd)) * 100)
          ((n : ℚ) / 1000000) st.last_speed (some (max 0 (pd - (n : ℚ) / 1000000)))],
       false) := by
  rw [processLine_some _ _ _ _ hline, durationOpt_pos hd, stepKV_out_time_parsed _ _ _ _ hv]

/-- C1 witness: duration 10 s, line `out_time_ms=2000000` → 2 s
elapsed, 20 % and 8 s ETA. -/
theorem C1_witness :
    processLine (durationOpt 10) ⟨0, none⟩ "out_time_ms=2000000" =
      (⟨2, none⟩, [Msg.file_progress 20 2 none (some 8)], false) := by
  have h := C1_out_time_progress ⟨0, none⟩ 10 "out_time_ms=2000000" "2000000" 2000000
    (by norm_num) (by decide) (by decide)
  rw [h]
  norm_num

/-! ### C7 -/

/-- C7: when the value of an `out_time_ms` line fails integer parsing,
the parser's elapsed-seconds value stays equal to the last
successfully parsed value and the emitted sample still carries that
retained value.  The parser state `st` is arbitrary, so this covers a
bad line at any position of the stream. -/
theorem C7_parse_failure_retains (d : Option ℚ) (st : ParserState) (raw v : String)
    (hline : parseLine raw = some ("out_time_ms", v))
    (hfail : parse_int v = none) :
    (processLine d st raw).1.last_out_time = st.last_out_time ∧
    ∀ pct o sp eta, Msg.file_progress pct o sp eta ∈ (processLine d st raw).2.1 →
      o = st.last_out_time := by
  rw [processLine_some _ _ _ _ hline, stepKV_out_time_failed _ _ _ hfail]
  refine ⟨rfl, ?_⟩
  intro pct o sp eta h
  cases d <;> simp_all

/-- C7 witness: after a good sample of 2 s, the line
`out_time_ms=N/A` keeps the elapsed time at 2 s. -/
theorem C7_witness :
    (processLine (some 10) ⟨2, none⟩ "out_time_ms=N/A").1.last_out_time = 2 := by
  exact (C7_parse_failure_retains (some 10) ⟨2, none⟩ "out_time_ms=N/A" "N/A"
    (by decide) (by decide)).1

/-! ### C10 -/

/-- C10: the duration probe never inspects the probing tool's exit
status: whenever the captured stdout (stripped) parses as a decimal
float, that value is returned for every exit status `rc`, even a
negative value and even when `rc` signals failure; only an exception
while running the tool (`launched = false`) or a non-parseable stdout
yields the `0` sentinel. -/
theorem C10_probe_ignores_exit_code :
    (∀ (rc : Int) (s : String) (v : ℚ), parse_float (pstrip s) = some v →
       ffprobe_duration_seconds true rc s = v) ∧
    (∀ (rc : Int) (s : String), parse_float (pstrip s) = none →
       ffprobe_duration_seconds true rc s = 0) ∧
    (∀ (rc : Int) (s : String), ffprobe_duration_seconds false rc s = 0) := by
  refine ⟨?_, ?_, ?_⟩
  · intro rc s v h
    unfold ffprobe_duration_seconds
    rw [if_pos rfl, h]
  · intro rc s h
    unfold ffprobe_duration_seconds
    rw [if_pos rfl, h]
  · intro rc s
    rfl

/-- C10 witness: with exit status 1 (failure) and stdout `-2.5`, the
probe still returns −5/2. -/
theorem C10_witness :
    ffprobe_duration_seconds true 1 " -2.5 " = (-5 / 2 : ℚ) := by
  exact C10_probe_ignores_exit_code.1 1 " -2.5 " (-5 / 2 : ℚ) (by with_unfolding_all decide)

/-! ### Shape of the messages emitted by the read loop -/

/-- Whether a line is the `progress=end` marker that breaks the read
loop (independent of the parser state and duration). -/
def breaksLoop (raw : String) : Bool :=
  match parseLine raw with
  | none => false
  | some kv => kv.1 == "progress" && kv.2 == "end"

/-- The break flag of `stepKV` is exactly the `progress`/`end` test. -/
theorem stepKV_break_eq (d : Option ℚ) (st : ParserState) (kv : String × String) :
    (stepKV d st kv).2.2 = (kv.1 == "progress" && kv.2 == "end") := by
  unfold stepKV
  by_cases h1 : kv.1 = "out_time_ms"
  · rw [if_pos h1]
    cases d <;> simp [h1]
  · rw [if_neg h1]
    by_cases h2 : kv.1 = "speed"
    · rw [if_pos h2]
      simp [h2]
    · rw [if_neg h2]
      by_cases h3 : kv.1 = "progress" ∧ kv.2 = "end"
      · rw [if_pos h3]
        simp [h3.1, h3.2]
      · rw [if_neg h3]
        simp only []
        rw [eq_comm, Bool.and_eq_false_iff]
        rcases not_and_or.mp h3 with h | h
        · exact Or.inl (by simpa using h)
        · exact Or.inr (by simpa using h)

/-- The break flag of a processed line is `breaksLoop` of the line. -/
theorem processLine_break_eq (d : Option ℚ) (st : ParserState) (raw : String) :
    (processLine d st raw).2.2 = breaksLoop raw := by
  unfold breaksLoop
  cases h : parseLine raw with
  | none => rw [processLine_none _ _ _ h]
  | some kv => rw [processLine_some _ _ _ _ h, stepKV_break_eq]

/-- Every message `stepKV` emits is a progress sample or a speed
update. -/
theorem stepKV_msgs_shape (d : Option ℚ) (st : ParserState) (kv : String × String) :
    ∀ m ∈ (stepKV d st kv).2.1, isProgressOrSpeed m = true := by
  intro m hm
  unfold stepKV at hm
  by_cases h1 : kv.1 = "out_time_ms"
  · rw [if_pos h1] at hm
    cases d <;> simp at hm <;> subst hm <;> rfl
  · rw [if_neg h1] at hm
    by_cases h2 : kv.1 = "speed"
    · rw [if_pos h2] at hm
      simp at hm
      subst hm
      rfl
    · rw [if_neg h2] at hm
      by_cases h3 : kv.1 = "progress" ∧ kv.2 = "end"
      · rw [if_pos h3] at hm
        simp at hm
      · rw [if_neg h3] at hm
        simp at hm

/-- Every message a processed line emits is a progress sample or a
speed update. -/
theorem processLine_msgs_shape (d : Option ℚ) (st : ParserState) (raw : String) :
    ∀ m ∈ (processLine d st raw).2.1, isProgressOrSpeed m = true := by
  cases h : parseLine raw with
  | none => rw [processLine_none _ _ _ h]; simp
  | some kv => rw [processLine_some _ _ _ _ h]; exact stepKV_msgs_shape d st kv

/-- Unfolded cons equation of the read loop. -/
theorem runLines_cons (d : Option ℚ) (st : ParserState) (l : String) (ls : List String) :
    runLines d st (l :: ls) =
      (if (processLine d st l).2.2 then ((processLine d st l).1, (processLine d st l).2.1)
       else ((runLines d (processLine d st l).1 ls).1,
             (processLine d st l).2.1 ++ (runLines d (processLine d st l).1 ls).2)) := rfl

/-- Every message the read loop emits is a progress sample or a speed
update. -/
theorem runLines_msgs_shape (d : Option ℚ) (ls : List String) :
    ∀ st, ∀ m ∈ (runLines d st ls).2, isProgressOrSpeed m = true := by
  induction ls with
  | nil => intro st m hm; simp [runLines] at hm
  | cons l ls ih =>
    intro st m hm
    rw [runLines_cons] at hm
    cases hb : (processLine d st l).2.2 with
    | true =>
      rw [hb] at hm
      simp only [if_true] at hm
      exact processLine_msgs_shape d st l m hm
    | false =>
      rw [hb] at hm
      simp only [Bool.false_eq_true, if_false, List.mem_append] at hm
      rcases hm with hm | hm
      · exact processLine_msgs_shape d st l m hm
      · exact ih _ m hm

/-- A progress/speed message is not a terminal. -/
theorem isDone_false_of_ps {m : Msg} (h : isProgressOrSpeed m = true) : isDone m = false := by
  cases m <;> simp_all [isProgressOrSpeed, isDone]

/-- A progress/speed message is not a `new_file` notification. -/
theorem isNewFile_false_of_ps {m : Msg} (h : isProgressOrSpeed m = true) :
    isNewFile m = false := by
  cases m <;> simp_all [isProgressOrSpeed, isNewFile]

/-- A progress/speed message is not `all_done`. -/
theorem ne_all_done_of_ps {m : Msg} (h : isProgressOrSpeed m = true) : m ≠ Msg.all_done := by
  cases m <;> simp_all [isProgressOrSpeed]

/-- Once a `progress=end` line is reached, the rest of the stream is
not consumed: the loop's result is the same as if the stream ended
right after the marker. -/
theorem runLines_stops_at_end (d : Option ℚ) (pre : List String) :
    ∀ (st : ParserState) (raw : String) (post : List String),
      (∀ l ∈ pre, breaksLoop l = false) → breaksLoop raw = true →
      runLines d st (pre ++ raw :: post) = runLines d st (pre ++ [raw]) := by
  induction pre with
  | nil =>
    intro st raw post _ hraw
    simp only [List.nil_append]
    rw [runLines_cons, runLines_cons, processLine_break_eq, hraw]
    simp [runLines]
  | cons a pre ih =>
    intro st raw post hpre hraw
    simp only [List.cons_append]
    rw [runLines_cons, runLines_cons]
    have ha : (processLine d st a).2.2 = false := by
      rw [processLine_break_eq]
      exact hpre a (List.mem_cons_self a pre)
    rw [ha]
    simp only [Bool.false_eq_true, if_false]
    rw [ih _ raw post (fun l hl => hpre l (List.mem_cons_of_mem a hl)) hraw]

/-! ### C9 -/

/-- C9: the progress parser reacts only to the keys `out_time_ms`,
`speed` and `progress`: blank lines, lines without `=`, and lines with
any other key produce no event and change no parser state; and a
`progress=end` line terminates the stream-reading loop, so no later
line of the stream is consumed. -/
theorem C9_parser_reacts_only_to_three_keys :
    (∀ raw : String, pstrip raw = "" ∨ (pstrip raw).data.contains '=' = false →
        parseLine raw = none) ∧
    (∀ (d : Option ℚ) (st : ParserState) (raw : String), parseLine raw = none →
        processLine d st raw = (st, [], false)) ∧
    (∀ (d : Option ℚ) (st : ParserState) (raw k v : String),
        parseLine raw = some (k, v) → k ≠ "out_time_ms" → k ≠ "speed" →
        ¬(k = "progress" ∧ v = "end") → processLine d st raw = (st, [], false)) ∧
    (∀ (d : Option ℚ) (st : ParserState) (pre : List String) (raw : String)
        (post : List String), (∀ l ∈ pre, breaksLoop l = false) → breaksLoop raw = true →
        runLines d st (pre ++ raw :: post) = runLines d st (pre ++ [raw])) := by
  refine ⟨?_, ?_, ?_, ?_⟩
  · intro raw h
    simp only [parseLine]
    rw [if_pos h]
  · intro d st raw h
    exact processLine_none d st raw h
  · intro d st raw k v h hk1 hk2 hk3
    rw [processLine_some _ _ _ _ h]
    unfold stepKV
    rw [if_neg (by simpa using hk1), if_neg (by simpa using hk2), if_neg (by simpa using hk3)]
  · intro d st pre raw post hpre hraw
    exact runLines_stops_at_end d pre st raw post hpre hraw

/-- C9 witness: a `frame=25` line and a blank line are ignored, and
after `progress=end` a later `out_time_ms` line is not consumed. -/
theorem C9_witness :
    processLine (some 10) ⟨0, none⟩ "frame=25" = (⟨0, none⟩, [], false) ∧
    processLine (some 10) ⟨0, none⟩ "   " = (⟨0, none⟩, [], false) ∧
    runLines (some 10) ⟨0, none⟩ ["progress=end", "out_time_ms=1000000"] =
      runLines (some 10) ⟨0, none⟩ ["progress=end"] := by
  refine ⟨?_, ?_, ?_⟩
  · exact C9_parser_reacts_only_to_three_keys.2.2.1 (some 10) ⟨0, none⟩ "frame=25" "frame"
      "25" (by decide) (by decide) (by decide) (by decide)
  · exact C9_parser_reacts_only_to_three_keys.2.1 (some 10) ⟨0, none⟩ "   "
      (C9_parser_reacts_only_to_three_keys.1 "   " (Or.inl (by decide)))
  · exact C9_parser_reacts_only_to_three_keys.2.2.2 (some 10) ⟨0, none⟩ []
      "progress=end" ["out_time_ms=1000000"] (by simp) (by decide)

/-! ### Terminal events of one conversion -/

/-- Unfolded form of `run_ffmpeg_with_progress`. -/
theorem run_ffmpeg_def (p : ℚ) (ls : List String) (rc : Int) (err : String) :
    run_ffmpeg_with_progress p ls rc err =
      (runLines (durationOpt p) ⟨0, none⟩ ls).2 ++
      [if rc = 0 then Msg.file_done true "" else Msg.file_done false (excerpt err)] := rfl

/-- Unfolded form of the exception path. -/
theorem run_ffmpeg_exn_def (p : ℚ) (consumed : List String) (e : String) :
    run_ffmpeg_with_progress_exn p consumed e =
      ((runLines (durationOpt p) ⟨0, none⟩ consumed).2 ++ [Msg.file_done false e], true) := rfl

/-- The read loop itself emits no terminal event. -/
theorem countP_done_runLines (d : Option ℚ) (ls : List String) (st : ParserState) :
    ((runLines d st ls).2).countP isDone = 0 := by
  rw [List.countP_eq_zero]
  intro m hm
  simp [isDone_false_of_ps (runLines_msgs_shape d ls st m hm)]

/-- The read loop emits no `new_file` event. -/
theorem countP_newFile_runLines (d : Option ℚ) (ls : List String) (st : ParserState) :
    ((runLines d st ls).2).countP isNewFile = 0 := by
  rw [List.countP_eq_zero]
  intro m hm
  simp [isNewFile_false_of_ps (runLines_msgs_shape d ls st m hm)]

/-- One conversion emits exactly one terminal event. -/
theorem run_ffmpeg_countP_done (p : ℚ) (ls : List String) (rc : Int) (err : String) :
    (run_ffmpeg_with_progress p ls rc err).countP isDone = 1 := by
  rw [run_ffmpeg_def, List.countP_append, countP_done_runLines]
  by_cases h : rc = 0 <;> simp [h, isDone]

/-- One conversion emits no `new_file` event of its own. -/
theorem run_ffmpeg_countP_newFile (p : ℚ) (ls : List String) (rc : Int) (err : String) :
    (run_ffmpeg_with_progress p ls rc err).countP isNewFile = 0 := by
  rw [run_ffmpeg_def, List.countP_append, countP_newFile_runLines]
  by_cases h : rc = 0 <;> simp [h, isNewFile]

/-- The terminal event is the last message of a conversion. -/
theorem run_ffmpeg_getLast (p : ℚ) (ls : List String) (rc : Int) (err : String) :
    (run_ffmpeg_with_progress p ls rc err).getLast? =
      some (if rc = 0 then Msg.file_done true "" else Msg.file_done false (excerpt err)) := by
  rw [run_ffmpeg_def]
  exact List.getLast?_concat _

/-- The stderr excerpt is bounded by 800 characters. -/
theorem excerpt_length_le (s : String) : (excerpt s).length ≤ 800 := by
  show ((pstrip s).data.take 800).length ≤ 800
  exact List.length_take_le _ _

/-! ### C3 -/

/-- C3: after the progress stream ends, exactly one terminal event is
emitted, as the last message: success iff the exit status is zero, a
failure carrying the stripped stderr excerpt of at most 800 characters
otherwise; and on an exception interrupting the read loop the runner
attempts to kill the child (the `Bool` flag of the exception path) and
emits one failure terminal carrying the exception's text. -/
theorem C3_terminal_outcome :
    (∀ (p : ℚ) (ls : List String) (rc : Int) (err : String),
       (run_ffmpeg_with_progress p ls rc err).countP isDone = 1 ∧
       (run_ffmpeg_with_progress p ls rc err).getLast? =
         some (if rc = 0 then Msg.file_done true "" else Msg.file_done false (excerpt err)) ∧
       (∀ (ok : Bool) (e : String),
          Msg.file_done ok e ∈ run_ffmpeg_with_progress p ls rc err →
          (ok = true ↔ rc = 0) ∧ e.length ≤ 800)) ∧
    (∀ (p : ℚ) (consumed : List String) (e : String),
       (run_ffmpeg_with_progress_exn p consumed e).2 = true ∧
       ((run_ffmpeg_with_progress_exn p consumed e).1).countP isDone = 1 ∧
       ((run_ffmpeg_with_progress_exn p consumed e).1).getLast? =
         some (Msg.file_done false e)) := by
  constructor
  · intro p ls rc err
    refine ⟨run_ffmpeg_countP_done p ls rc err, run_ffmpeg_getLast p ls rc err, ?_⟩
    intro ok e hm
    rw [run_ffmpeg_def] at hm
    rcases List.mem_append.mp hm with hm | hm
    · have := runLines_msgs_shape _ _ _ _ hm
      simp [isProgressOrSpeed] at this
    · by_cases h : rc = 0
      · rw [if_pos h] at hm
        simp only [List.mem_singleton, Msg.file_done.injEq] at hm
        obtain ⟨rfl, rfl⟩ := hm
        simp [h]
      · rw [if_neg h] at hm
        simp only [List.mem_singleton, Msg.file_done.injEq] at hm
        obtain ⟨rfl, rfl⟩ := hm
        simp [h, excerpt_length_le]
  · intro p consumed e
    rw [run_ffmpeg_exn_def]
    refine ⟨rfl, ?_, List.getLast?_concat _⟩
    rw [List.countP_append, countP_done_runLines]
    simp [isDone]

/-- C3 witness: with an empty stream and exit status 0 the single
emitted event is a success terminal, so its flag agrees with the zero
exit status and its message is within the bound. -/
theorem C3_witness :
    ((true : Bool) = true ↔ (0 : Int) = 0) ∧ ("" : String).length ≤ 800 :=
  (C3_terminal_outcome.1 10 [] 0 "x").2.2 true "" (by with_unfolding_all decide)

/-! ### C6 -/

/-- With an unknown duration every progress sample `stepKV` emits has
percentage 0 and no ETA. -/
theorem stepKV_none_progress (st : ParserState) (kv : String × String) :
    ∀ (pct o : ℚ) (sp : Option String) (eta : Option ℚ),
      Msg.file_progress pct o sp eta ∈ (stepKV none st kv).2.1 → pct = 0 ∧ eta = none := by
  intro pct o sp eta hm
  unfold stepKV at hm
  by_cases h1 : kv.1 = "out_time_ms"
  · rw [if_pos h1] at hm
    simp only [List.mem_singleton, Msg.file_progress.injEq] at hm
    exact ⟨hm.1, hm.2.2.2⟩
  · rw [if_neg h1] at hm
    by_cases h2 : kv.1 = "speed"
    · rw [if_pos h2] at hm
      simp at hm
    · rw [if_neg h2] at hm
      by_cases h3 : kv.1 = "progress" ∧ kv.2 = "end"
      · rw [if_pos h3] at hm
        simp at hm
      · rw [if_neg h3] at hm
        simp at hm

/-- With an unknown duration every progress sample of the read loop
has percentage 0 and no ETA. -/
theorem runLines_none_progress (ls : List String) :
    ∀ st, ∀ (pct o : ℚ) (sp : Option String) (eta : Option ℚ),
      Msg.file_progress pct o sp eta ∈ (runLines none st ls).2 → pct = 0 ∧ eta = none := by
  induction ls with
  | nil => intro st pct o sp eta hm; simp [runLines] at hm
  | cons l ls ih =>
    intro st pct o sp eta hm
    rw [runLines_cons] at hm
    have hstep : ∀ hm' : Msg.file_progress pct o sp eta ∈ (processLine none st l).2.1,
        pct = 0 ∧ eta = none := by
      intro hm'
      cases h : parseLine l with
      | none => rw [processLine_none _ _ _ h] at hm'; simp at hm'
      | some kv =>
        rw [processLine_some _ _ _ _ h] at hm'
        exact stepKV_none_progress st kv pct o sp eta hm'
    cases hb : (processLine none st l).2.2 with
    | true =>
      rw [hb] at hm
      simp only [if_true] at hm
      exact hstep hm
    | false =>
      rw [hb] at hm
      simp only [Bool.false_eq_true, if_false, List.mem_append] at hm
      rcases hm with hm | hm
      · exact hstep hm
      · exact ih _ pct o sp eta hm

/-- C6: when the duration probe fails or yields a value ≤ 0, every
file-progress event of that job reports percentage 0 and an absent
ETA, elapsed-time tracking still proceeds internally (a parseable
`out_time_ms` value still updates `last_out_time`), and the conversion
still ends with its single terminal event. -/
theorem C6_unknown_duration (p : ℚ) (ls : List String) (rc : Int) (err : String)
    (hp : p ≤ 0) :
    (∀ (pct o : ℚ) (sp : Option String) (eta : Option ℚ),
        Msg.file_progress pct o sp eta ∈ run_ffmpeg_with_progress p ls rc err →
        pct = 0 ∧ eta = none) ∧
    (run_ffmpeg_with_progress p ls rc err).countP isDone = 1 ∧
    (run_ffmpeg_with_progress p ls rc err).getLast? =
      some (if rc = 0 then Msg.file_done true "" else Msg.file_done false (excerpt err)) ∧
    (∀ (st : ParserState) (v : String) (n : Int), parse_int v = some n →
        (stepKV none st ("out_time_ms", v)).1.last_out_time = (n : ℚ) / 1000000) := by
  refine ⟨?_, run_ffmpeg_countP_done p ls rc err, run_ffmpeg_getLast p ls rc err, ?_⟩
  · intro pct o sp eta hm
    rw [run_ffmpeg_def, durationOpt_nonpos hp] at hm
    rcases List.mem_append.mp hm with hm | hm
    · exact runLines_none_progress ls _ pct o sp eta hm
    · by_cases h : rc = 0
      · rw [if_pos h] at hm
        simp at hm
      · rw [if_neg h] at hm
        simp at hm
  · intro st v n hv
    rw [stepKV_out_time_parsed none st v n hv]

/-- C6 witness: probed duration 0, a 1-second sample: the emitted
percentage is 0 and the ETA absent. -/
theorem C6_witness : (0 : ℚ) = 0 ∧ (none : Option ℚ) = none :=
  (C6_unknown_duration 0 ["out_time_ms=1000000"] 0 "" (le_refl 0)).1 0 1 none none
    (by with_unfolding_all decide)

/-! ### Batch loop structure -/

/-- Unfolded nil equation of the batch loop. -/
theorem convertLoop_nil (n : Nat) (cA : Option Nat) (i : Nat) :
    convertLoop n cA i [] = [] := rfl

/-- Unfolded cons equation of the batch loop. -/
theorem convertLoop_cons (n : Nat) (cA : Option Nat) (i : Nat) (j : Job) (rest : List Job) :
    convertLoop n cA i (j :: rest) =
      (if cancelledAt cA i then [] else jobEvents n (i + 1) j ++ convertLoop n cA (i + 1) rest) :=
  rfl

/-- A job's new-file event is followed by progress/speed events and
then its terminal event. -/
theorem run_ffmpeg_block (p : ℚ) (ls : List String) (rc : Int) (err : String) :
    ∃ (mid : List Msg) (ok : Bool) (e : String),
      run_ffmpeg_with_progress p ls rc err = mid ++ [Msg.file_done ok e] ∧
      ∀ m ∈ mid, isProgressOrSpeed m = true := by
  by_cases h : rc = 0
  · exact ⟨_, true, "", by rw [run_ffmpeg_def, if_pos h], runLines_msgs_shape _ _ _⟩
  · exact ⟨_, false, excerpt err, by rw [run_ffmpeg_def, if_neg h], runLines_msgs_shape _ _ _⟩

/-- Each started job contributes exactly one `new_file` event. -/
theorem jobEvents_countP_newFile (n idx : Nat) (j : Job) :
    (jobEvents n idx j).countP isNewFile = 1 := by
  unfold jobEvents
  rw [List.countP_cons, run_ffmpeg_countP_newFile]
  simp [isNewFile]

/-- Each started job contributes exactly one terminal event. -/
theorem jobEvents_countP_done (n idx : Nat) (j : Job) :
    (jobEvents n idx j).countP isDone = 1 := by
  unfold jobEvents
  rw [List.countP_cons, run_ffmpeg_countP_done]
  simp [isDone]

/-- In a non-cancelled run every job is started: per-job event counts
are one per job, independently of every job's outcome. -/
theorem convertLoop_none_countP (n : Nat) (pred : Msg → Bool)
    (h1 : ∀ (idx : Nat) (j : Job), (jobEvents n idx j).countP pred = 1) :
    ∀ (jobs : List Job) (i : Nat), (convertLoop n none i jobs).countP pred = jobs.length := by
  intro jobs
  induction jobs with
  | nil => intro i; simp [convertLoop_nil]
  | cons j rest ih =>
    intro i
    rw [convertLoop_cons]
    have hc : cancelledAt none i = false := rfl
    rw [hc]
    simp only [Bool.false_eq_true, if_false]
    rw [List.countP_append, h1, ih (i + 1)]
    simp only [List.length_cons]
    omega

/-- The batch ends with the single `all_done` event. -/
theorem convert_all_getLast (jobs : List Job) (cA : Option Nat) :
    (convert_all jobs cA).getLast? = some Msg.all_done :=
  List.getLast?_concat _

/-! ### C8 (fallback message is the Spanish string) -/

/-- C8 counterexample: a failure terminal with no captured message
appends the fallback string `Error desconocido`, which is not the
literal string `unknown error` the claim quotes. -/
theorem C8_counterexample :
    (handle_msg (initApp 1) (Msg.file_done false "")).1.errors = ["Error desconocido"] ∧
    "Error desconocido" ≠ "unknown error" := by
  exact ⟨rfl, by decide⟩

/-- C8 amended: every terminal event, success or failure, increments
the completed count by exactly one; a failure appends its message to
the error list, falling back to the string `Error desconocido`
(Spanish for "unknown error") when no message was captured; and the
batch always continues, every job of a non-cancelled run receiving its
`new_file` and terminal events regardless of other jobs' outcomes. -/
theorem C8_terminal_accounting :
    (∀ (st : AppState) (ok : Bool) (err : String),
       (handle_msg st (Msg.file_done ok err)).1.done_count = st.done_count + 1 ∧
       (handle_msg st (Msg.file_done ok err)).1.errors =
         (if ok then st.errors
          else st.errors ++ [if err = "" then "Error desconocido" else err])) ∧
    (∀ jobs : List Job,
       (convert_all jobs none).countP isNewFile = jobs.length ∧
       (convert_all jobs none).countP isDone = jobs.length) := by
  constructor
  · intro st ok err
    exact ⟨rfl, rfl⟩
  · intro jobs
    constructor
    · unfold convert_all
      rw [List.countP_append,
        convertLoop_none_countP jobs.length isNewFile (jobEvents_countP_newFile jobs.length)]
      simp [isNewFile]
    · unfold convert_all
      rw [List.countP_append,
        convertLoop_none_countP jobs.length isDone (jobEvents_countP_done jobs.length)]
      simp [isDone]

/-! ### C4 -/

/-- The batch loop's output is a concatenation of per-job blocks, each
of the shape new-file, then progress/speed events, then one terminal
event. -/
theorem convertLoop_blocks (n : Nat) (cancelAt : Option Nat) :
    ∀ (jobs : List Job) (i : Nat),
      ∃ blocks : List (List Msg),
        convertLoop n cancelAt i jobs = blocks.flatten ∧
        ∀ b ∈ blocks, ∃ (idx : Nat) (name : String) (mid : List Msg) (ok : Bool) (e : String),
          b = Msg.new_file idx n name :: (mid ++ [Msg.file_done ok e]) ∧
          ∀ m ∈ mid, isProgressOrSpeed m = true := by
  intro jobs
  induction jobs with
  | nil => intro i; exact ⟨[], rfl, by simp⟩
  | cons j rest ih =>
    intro i
    cases hb : cancelledAt cancelAt i with
    | true =>
      refine ⟨[], ?_, by simp⟩
      rw [convertLoop_cons, hb]
      simp
    | false =>
      obtain ⟨blocks, hbl, hsh⟩ := ih (i + 1)
      obtain ⟨mid, ok, e, hrun, hmid⟩ := run_ffmpeg_block j.probed j.lines j.rc j.stderrText
      refine ⟨(Msg.new_file (i + 1) n j.name :: (mid ++ [Msg.file_done ok e])) :: blocks, ?_, ?_⟩
      · rw [convertLoop_cons, hb]
        simp only [Bool.false_eq_true, if_false]
        rw [hbl]
        unfold jobEvents
        rw [hrun]
        simp
      · intro b hb'
        rcases List.mem_cons.mp hb' with rfl | hb'
        · exact ⟨i + 1, j.name, mid, ok, e, rfl, hmid⟩
        · exact hsh b hb'

/-- For an exception-free run the events are per-job blocks in order —
new-file, then that job's progress/speed events in emission order,
then its terminal event — followed by the `all_done` event, which is
the unique last event (and also when cancellation truncated the
loop).  This ordering guarantee does not survive a launch failure:
see `C4_launch_failure_code_bug`. -/
theorem convert_all_event_ordering (jobs : List Job) (cancelAt : Option Nat) :
    ∃ blocks : List (List Msg),
      convert_all jobs cancelAt = blocks.flatten ++ [Msg.all_done] ∧
      (∀ b ∈ blocks, ∃ (idx : Nat) (name : String) (mid : List Msg) (ok : Bool) (e : String),
         b = Msg.new_file idx jobs.length name :: (mid ++ [Msg.file_done ok e]) ∧
         ∀ m ∈ mid, isProgressOrSpeed m = true) ∧
      (convert_all jobs cancelAt).count Msg.all_done = 1 := by
  obtain ⟨blocks, hbl, hsh⟩ := convertLoop_blocks jobs.length cancelAt jobs 0
  refine ⟨blocks, ?_, hsh, ?_⟩
  · unfold convert_all
    rw [hbl]
  · unfold convert_all
    rw [List.count_append, hbl]
    have hz : (blocks.flatten).count Msg.all_done = 0 := by
      rw [List.count_eq_zero]
      intro hmem
      rw [List.mem_flatten] at hmem
      obtain ⟨b, hb, hmb⟩ := hmem
      obtain ⟨idx, name, mid, ok, e, rfl, hmid⟩ := hsh b hb
      rcases List.mem_cons.mp hmb with h | h
      · simp at h
      · rcases List.mem_append.mp h with h | h
        · exact (ne_all_done_of_ps (hmid _ h)) rfl
        · simp at h
    rw [hz]
    simp

/-- No `all_done` is ever emitted inside a job's own event block. -/
theorem all_done_not_mem_jobEvents (n idx : Nat) (j : Job) :
    Msg.all_done ∉ jobEvents n idx j := by
  intro h
  unfold jobEvents at h
  rcases List.mem_cons.mp h with h | h
  · simp at h
  · obtain ⟨mid, ok, e, hrun, hmid⟩ := run_ffmpeg_block j.probed j.lines j.rc j.stderrText
    rw [hrun] at h
    rcases List.mem_append.mp h with h | h
    · exact (ne_all_done_of_ps (hmid _ h)) rfl
    · simp at h

/-- Unfolded cons equation of the crashing batch loop. -/
theorem convertCrashLoop_cons (total f i : Nat) (j : Job) (rest : List Job) :
    convertCrashLoop total f i (j :: rest) =
      (if i = f then Msg.new_file (i + 1) total j.name :: run_ffmpeg_launch_failed
       else jobEvents total (i + 1) j ++ convertCrashLoop total f (i + 1) rest) := rfl

/-- Event counts of the crashing loop from boundary `i ≤ f`: the
crashing job's `new_file` goes out but its terminal never does, and
no `all_done` appears anywhere. -/
theorem convertCrashLoop_counts (total f : Nat) :
    ∀ (jobs : List Job) (i : Nat), i ≤ f → f < i + jobs.length →
      (convertCrashLoop total f i jobs).countP isNewFile = f - i + 1 ∧
      (convertCrashLoop total f i jobs).countP isDone = f - i ∧
      Msg.all_done ∉ convertCrashLoop total f i jobs := by
  intro jobs
  induction jobs with
  | nil =>
    intro i h1 h2
    simp only [List.length_nil] at h2
    omega
  | cons j rest ih =>
    intro i h1 h2
    rw [convertCrashLoop_cons]
    by_cases hif : i = f
    · rw [if_pos hif]
      refine ⟨?_, ?_, ?_⟩
      · show (Msg.new_file (i + 1) total j.name :: []).countP isNewFile = f - i + 1
        rw [List.countP_cons, List.countP_nil]
        rw [show isNewFile (Msg.new_file (i + 1) total j.name) = true from rfl, if_pos rfl]
        omega
      · show (Msg.new_file (i + 1) total j.name :: []).countP isDone = f - i
        rw [List.countP_cons, List.countP_nil]
        rw [show isDone (Msg.new_file (i + 1) total j.name) = false from rfl]
        simp only [Bool.false_eq_true, if_false]
        omega
      · show Msg.all_done ∉ (Msg.new_file (i + 1) total j.name :: [])
        simp
    · rw [if_neg hif]
      obtain ⟨ih1, ih2, ih3⟩ := ih (i + 1) (by omega)
        (by simp only [List.length_cons] at h2; omega)
      refine ⟨?_, ?_, ?_⟩
      · rw [List.countP_append, jobEvents_countP_newFile, ih1]
        omega
      · rw [List.countP_append, jobEvents_countP_done, ih2]
        omega
      · intro h
        rcases List.mem_append.mp h with h | h
        · exact all_done_not_mem_jobEvents total (i + 1) j h
        · exact ih3 h

/-- C4: the claimed ordering guarantee is falsified by the code on a
launch failure: when job `f`'s transcoder launch raises (tool missing
— the spec's own §8 scenario), `Popen` (line 49) being outside the
`try` (line 61) and `convert_all` having no handler, the run's
channel receives job `f`'s `new_file` event but never a terminal
event for it, and never an `all_done`: `f + 1` jobs start but only
`f` terminal events go out and no final event is emitted, although
the spec requires a failure terminal for the job and `all_done`
last. -/
theorem C4_launch_failure_code_bug (jobs : List Job) (f : Nat) (hf : f < jobs.length) :
    (convert_all_crash jobs f).countP isNewFile = f + 1 ∧
    (convert_all_crash jobs f).countP isDone = f ∧
    Msg.all_done ∉ convert_all_crash jobs f := by
  obtain ⟨h1, h2, h3⟩ := convertCrashLoop_counts jobs.length f jobs 0 (Nat.zero_le f)
    (by omega)
  unfold convert_all_crash
  refine ⟨?_, ?_, h3⟩
  · rw [h1]
    omega
  · rw [h2]
    omega

/-- C4 witness: one job whose launch fails — its `new_file` goes out,
but no terminal event and no `all_done` ever follow. -/
theorem C4_witness :
    (convert_all_crash [⟨"a.mp4", 10, [], 0, ""⟩] 0).countP isNewFile = 1 ∧
    (convert_all_crash [⟨"a.mp4", 10, [], 0, ""⟩] 0).countP isDone = 0 ∧
    Msg.all_done ∉ convert_all_crash [⟨"a.mp4", 10, [], 0, ""⟩] 0 :=
  C4_launch_failure_code_bug [⟨"a.mp4", 10, [], 0, ""⟩] 0 (by decide)

/-! ### C5 -/

/-- When cancellation lands at 0-based job boundary `k`, the loop
starting at a boundary past `k` emits nothing. -/
theorem convertLoop_cancelled (n k i : Nat) (jobs : List Job) (h : k ≤ i) :
    convertLoop n (some k) i jobs = [] := by
  cases jobs with
  | nil => rfl
  | cons j rest =>
    rw [convertLoop_cons]
    have hc : cancelledAt (some k) i = true := by simp [cancelledAt, h]
    rw [hc]
    simp

/-- Per-job event counts of a run cancelled at boundary `k`: exactly
`k − i` blocks are started from boundary `i ≤ k`. -/
theorem convertLoop_some_countP (n k : Nat) (pred : Msg → Bool)
    (h1 : ∀ (idx : Nat) (j : Job), (jobEvents n idx j).countP pred = 1) :
    ∀ (jobs : List Job) (i : Nat), i ≤ k → k ≤ i + jobs.length →
      (convertLoop n (some k) i jobs).countP pred = k - i := by
  intro jobs
  induction jobs with
  | nil =>
    intro i hik hki
    rw [convertLoop_nil]
    simp only [List.countP_nil, List.length_nil] at *
    omega
  | cons j rest ih =>
    intro i hik hki
    rw [convertLoop_cons]
    by_cases hc : k ≤ i
    · have hcc : cancelledAt (some k) i = true := by simp [cancelledAt, hc]
      rw [hcc]
      simp only [if_true, List.countP_nil]
      omega
    · have hcc : cancelledAt (some k) i = false := by
        simp only [cancelledAt, decide_eq_false_iff_not]
        omega
      rw [hcc]
      simp only [Bool.false_eq_true, if_false]
      rw [List.countP_append, h1, ih (i + 1) (by omega) (by simp at hki; omega)]
      omega

/-- Any `new_file` event of a run cancelled at boundary `k` has a
1-based index at most `k`: jobs `k+1, k+2, …` are never started. -/
theorem convertLoop_newFile_le (n k : Nat) :
    ∀ (jobs : List Job) (i : Nat) (idx t : Nat) (name : String),
      Msg.new_file idx t name ∈ convertLoop n (some k) i jobs → idx ≤ k := by
  intro jobs
  induction jobs with
  | nil =>
    intro i idx t name h
    rw [convertLoop_nil] at h
    simp at h
  | cons j rest ih =>
    intro i idx t name h
    rw [convertLoop_cons] at h
    by_cases hc : k ≤ i
    · have hcc : cancelledAt (some k) i = true := by simp [cancelledAt, hc]
      rw [hcc] at h
      simp at h
    · have hcc : cancelledAt (some k) i = false := by
        simp only [cancelledAt, decide_eq_false_iff_not]
        omega
      rw [hcc] at h
      simp only [Bool.false_eq_true, if_false, List.mem_append] at h
      rcases h with h | h
      · unfold jobEvents at h
        rcases List.mem_cons.mp h with h | h
        · obtain ⟨h1', h2', h3'⟩ := Msg.new_file.injEq .. ▸ h
          omega
        · obtain ⟨mid, ok, e, hrun, hmid⟩ := run_ffmpeg_block j.probed j.lines j.rc j.stderrText
          rw [hrun] at h
          rcases List.mem_append.mp h with h | h
          · have := hmid _ h
            simp [isProgressOrSpeed] at this
          · simp at h
      · exact ih (i + 1) idx t name h

/-- Processing an event list adds one to the completed count per
terminal event it contains. -/
theorem runApp_done_count (ms : List Msg) :
    ∀ st : AppState, (runApp st ms).1.done_count = st.done_count + ms.countP isDone := by
  induction ms with
  | nil => intro st; simp [runApp]
  | cons m ms ih =>
    intro st
    show (runApp (handle_msg st m).1 ms).1.done_count = _
    rw [ih, List.countP_cons]
    cases m <;> simp [handle_msg, isDone] <;> omega

/-- C5: when cancellation is requested after job `k`'s terminal event
and before job `k+1` starts, the flag is consulted only at job
boundaries: no job past `k` ever receives a `new_file` event, every
started job still runs to its terminal event (`k` new-file and `k`
terminal events), the `all_done` event still fires last, and the final
completed count is exactly `k`. -/
theorem C5_cancellation_at_boundary (jobs : List Job) (k : Nat) (hk : k ≤ jobs.length) :
    (∀ (idx t : Nat) (name : String),
        Msg.new_file idx t name ∈ convert_all jobs (some k) → idx ≤ k) ∧
    (convert_all jobs (some k)).countP isNewFile = k ∧
    (convert_all jobs (some k)).countP isDone = k ∧
    (convert_all jobs (some k)).getLast? = some Msg.all_done ∧
    (runApp (initApp jobs.length) (convert_all jobs (some k))).1.done_count = k := by
  have hcount : ∀ pred : Msg → Bool,
      (∀ (idx : Nat) (j : Job), (jobEvents jobs.length idx j).countP pred = 1) →
      pred Msg.all_done = false →
      (convert_all jobs (some k)).countP pred = k := by
    intro pred h1 h2
    unfold convert_all
    rw [List.countP_append,
      convertLoop_some_countP jobs.length k pred h1 jobs 0 (Nat.zero_le k) (by omega)]
    simp [h2]
  refine ⟨?_, ?_, ?_, convert_all_getLast jobs (some k), ?_⟩
  · intro idx t name h
    unfold convert_all at h
    rcases List.mem_append.mp h with h | h
    · exact convertLoop_newFile_le jobs.length k jobs 0 idx t name h
    · simp at h
  · exact hcount isNewFile (jobEvents_countP_newFile jobs.length) rfl
  · exact hcount isDone (jobEvents_countP_done jobs.length) rfl
  · rw [runApp_done_count]
    rw [hcount isDone (jobEvents_countP_done jobs.length) rfl]
    simp [initApp]

/-- C5 witness: two jobs, cancellation at boundary 1 — only one
`new_file` event goes out and the final completed count is 1. -/
theorem C5_witness :
    (convert_all [⟨"a", 0, [], 0, ""⟩, ⟨"b", 0, [], 0, ""⟩] (some 1)).countP isNewFile = 1 ∧
    (runApp (initApp 2)
      (convert_all [⟨"a", 0, [], 0, ""⟩, ⟨"b", 0, [], 0, ""⟩] (some 1))).1.done_count = 1 := by
  have h := C5_cancellation_at_boundary [⟨"a", 0, [], 0, ""⟩, ⟨"b", 0, [], 0, ""⟩] 1 (by decide)
  exact ⟨h.2.1, h.2.2.2.2⟩

/-! ### Aggregate progress: plumbing -/

/-- A percentage a progress message may carry is between 0 and 100
(trivial for non-progress messages). -/
def pctBounded : Msg → Prop
  | Msg.file_progress pct _ _ _ => 0 ≤ pct ∧ pct ≤ 100
  | _ => True

/-- Every message `stepKV` emits has a bounded percentage: the clamp
keeps a known-duration sample in [0, 100] and an unknown-duration
sample is 0. -/
theorem stepKV_pctBounded (d : Option ℚ) (st : ParserState) (kv : String × String) :
    ∀ m ∈ (stepKV d st kv).2.1, pctBounded m := by
  intro m hm
  unfold stepKV at hm
  by_cases h1 : kv.1 = "out_time_ms"
  · rw [if_pos h1] at hm
    cases d with
    | some dd =>
      simp only [List.mem_singleton] at hm
      subst hm
      refine ⟨mul_nonneg (le_max_left 0 _) (by norm_num), ?_⟩
      have h2 : max 0 (min 1 ((match parse_int kv.2 with
          | some n => (n : ℚ) / 1000000
          | none => st.last_out_time) / dd)) ≤ 1 :=
        max_le (by norm_num) (min_le_left _ _)
      nlinarith
    | none =>
      simp only [List.mem_singleton] at hm
      subst hm
      exact ⟨le_refl 0, by norm_num⟩
  · rw [if_neg h1] at hm
    by_cases h2 : kv.1 = "speed"
    · rw [if_pos h2] at hm
      simp only [List.mem_singleton] at hm
      subst hm
      trivial
    · rw [if_neg h2] at hm
      by_cases h3 : kv.1 = "progress" ∧ kv.2 = "end"
      · rw [if_pos h3] at hm
        simp at hm
      · rw [if_neg h3] at hm
        simp at hm

/-- Lift a per-step property of emitted messages through the read
loop. -/
theorem runLines_mem_msgs (d : Option ℚ) (ls : List String) (P : Msg → Prop)
    (hstep : ∀ (st : ParserState) (kv : String × String), ∀ m ∈ (stepKV d st kv).2.1, P m) :
    ∀ st, ∀ m ∈ (runLines d st ls).2, P m := by
  induction ls with
  | nil => intro st m hm; simp [runLines] at hm
  | cons l ls ih =>
    intro st m hm
    rw [runLines_cons] at hm
    have hproc : ∀ m' ∈ (processLine d st l).2.1, P m' := by
      intro m' hm'
      cases h : parseLine l with
      | none => rw [processLine_none _ _ _ h] at hm'; simp at hm'
      | some kv => rw [processLine_some _ _ _ _ h] at hm'; exact hstep st kv m' hm'
    cases hb : (processLine d st l).2.2 with
    | true =>
      rw [hb] at hm
      simp only [if_true] at hm
      exact hproc m hm
    | false =>
      rw [hb] at hm
      simp only [Bool.false_eq_true, if_false, List.mem_append] at hm
      rcases hm with hm | hm
      · exact hproc m hm
      · exact ih _ m hm

/-- A percentage appears in `progressPcts` exactly when some progress
message carries it. -/
theorem mem_progressPcts {ms : List Msg} {pct : ℚ} :
    pct ∈ progressPcts ms ↔
      ∃ (o : ℚ) (sp : Option String) (eta : Option ℚ),
        Msg.file_progress pct o sp eta ∈ ms := by
  unfold progressPcts
  rw [List.mem_filterMap]
  constructor
  · rintro ⟨m, hm, hf⟩
    cases m with
    | file_progress pct' o sp eta =>
      simp only [Option.some.injEq] at hf
      subst hf
      exact ⟨o, sp, eta, hm⟩
    | speed s => simp at hf
    | file_done ok e => simp at hf
    | new_file a b c => simp at hf
    | all_done => simp at hf
  · rintro ⟨o, sp, eta, hm⟩
    exact ⟨Msg.file_progress pct o sp eta, hm, rfl⟩

/-- All per-file percentages of one conversion lie in [0, 100]. -/
theorem run_ffmpeg_pct_bounds (p : ℚ) (ls : List String) (rc : Int) (err : String) :
    ∀ pct ∈ progressPcts (run_ffmpeg_with_progress p ls rc err), 0 ≤ pct ∧ pct ≤ 100 := by
  intro pct hp
  obtain ⟨o, sp, eta, hm⟩ := mem_progressPcts.mp hp
  rw [run_ffmpeg_def] at hm
  rcases List.mem_append.mp hm with hm | hm
  · exact runLines_mem_msgs _ ls pctBounded (stepKV_pctBounded _) _ _ hm
  · by_cases h : rc = 0
    · rw [if_pos h] at hm
      simp at hm
    · rw [if_neg h] at hm
      simp at hm

/-- `progressPcts` distributes over append. -/
theorem progressPcts_append (a b : List Msg) :
    progressPcts (a ++ b) = progressPcts a ++ progressPcts b :=
  List.filterMap_append a b _

/-- A terminal event carries no percentage. -/
theorem progressPcts_done (ok : Bool) (e : String) :
    progressPcts [Msg.file_done ok e] = [] := rfl

/-- The percentages of one conversion are those of its read loop. -/
theorem progressPcts_run_ffmpeg (p : ℚ) (ls : List String) (rc : Int) (err : String) :
    progressPcts (run_ffmpeg_with_progress p ls rc err) =
      progressPcts (runLines (durationOpt p) ⟨0, none⟩ ls).2 := by
  rw [run_ffmpeg_def, progressPcts_append]
  by_cases h : rc = 0
  · rw [if_pos h, progressPcts_done, List.append_nil]
  · rw [if_neg h, progressPcts_done, List.append_nil]

/-- Unfolded cons equation of the event consumer fold. -/
theorem runApp_cons (st : AppState) (m : Msg) (ms : List Msg) :
    runApp st (m :: ms) =
      ((runApp (handle_msg st m).1 ms).1,
       (handle_msg st m).2.toList ++ (runApp (handle_msg st m).1 ms).2) := rfl

/-- The event consumer fold distributes over append. -/
theorem runApp_append (a : List Msg) :
    ∀ (st : AppState) (b : List Msg),
      runApp st (a ++ b) =
        ((runApp (runApp st a).1 b).1, (runApp st a).2 ++ (runApp (runApp st a).1 b).2) := by
  induction a with
  | nil => intro st b; simp [runApp]
  | cons m a ih =>
    intro st b
    rw [List.cons_append, runApp_cons, ih, runApp_cons]
    simp [List.append_assoc]

/-- The `file_progress` branch of `handle_msg`: the aggregate written
to the total bar is `((completed + pct/100) / max 1 total) * 100`. -/
theorem handle_msg_progress (st : AppState) (pct o : ℚ) (sp : Option String)
    (eta : Option ℚ) :
    handle_msg st (Msg.file_progress pct o sp eta) =
      ({ st with current_pct := pct },
       some ((((st.done_count : ℚ) + pct / 100) / ((max 1 st.total_count : Nat) : ℚ)) * 100)) :=
  rfl

/-- The `file_done` branch of `handle_msg`: the completed count
increments and the aggregate resets to `(completed / max 1 total) * 100`. -/
theorem handle_msg_done (st : AppState) (ok : Bool) (err : String) :
    handle_msg st (Msg.file_done ok err) =
      ({ st with done_count := st.done_count + 1,
                 errors := if ok then st.errors
                           else st.errors ++ [if err = "" then "Error desconocido" else err] },
       some ((((st.done_count + 1 : Nat) : ℚ) / ((max 1 st.total_count : Nat) : ℚ)) * 100)) :=
  rfl

/-- The `speed` branch of `handle_msg` stores the token and writes no
aggregate. -/
theorem handle_msg_speed (st : AppState) (s : String) :
    handle_msg st (Msg.speed s) = ({ st with current_speed := some s }, none) := rfl

/-- The `new_file` branch of `handle_msg` resets the per-file fields
and writes no aggregate. -/
theorem handle_msg_new_file (st : AppState) (i t : Nat) (name : String) :
    handle_msg st (Msg.new_file i t name) =
      ({ st with current_pct := 0, current_speed := none }, none) := rfl

/-- Processing a run of progress/speed events from state `st`: the
counters are untouched and the aggregates written are exactly the
in-flight formula applied to the successive percentages. -/
theorem runApp_body (body : List Msg) :
    ∀ st : AppState, (∀ m ∈ body, isProgressOrSpeed m = true) →
      (runApp st body).1.done_count = st.done_count ∧
      (runApp st body).1.total_count = st.total_count ∧
      (runApp st body).2 = (progressPcts body).map
        (fun pct =>
          (((st.done_count : ℚ) + pct / 100) / ((max 1 st.total_count : Nat) : ℚ)) * 100) := by
  induction body with
  | nil => intro st h; exact ⟨rfl, rfl, rfl⟩
  | cons m ms ih =>
    intro st h
    have hm := h m (List.mem_cons_self m ms)
    cases m with
    | file_progress pct o sp eta =>
      rw [runApp_cons, handle_msg_progress]
      obtain ⟨h1, h2, h3⟩ := ih { st with current_pct := pct }
        (fun m' hm' => h m' (List.mem_cons_of_mem _ hm'))
      refine ⟨h1, h2, ?_⟩
      rw [h3]
      rfl
    | speed s =>
      rw [runApp_cons, handle_msg_speed]
      obtain ⟨h1, h2, h3⟩ := ih { st with current_speed := some s }
        (fun m' hm' => h m' (List.mem_cons_of_mem _ hm'))
      refine ⟨h1, h2, ?_⟩
      rw [h3]
      rfl
    | file_done ok e => simp [isProgressOrSpeed] at hm
    | new_file a b c => simp [isProgressOrSpeed] at hm
    | all_done => simp [isProgressOrSpeed] at hm

/-- Processing a lone terminal event. -/
theorem runApp_single_done (st : AppState) (ok : Bool) (e : String) :
    runApp st [Msg.file_done ok e] =
      ({ st with done_count := st.done_count + 1,
                 errors := if ok then st.errors
                           else st.errors ++ [if e = "" then "Error desconocido" else e] },
       [(((st.done_count + 1 : Nat) : ℚ) / ((max 1 st.total_count : Nat) : ℚ)) * 100]) := rfl

/-- Processing one job's block of events: completed goes up by one,
total is untouched, and the aggregates written are the in-flight
formula over the job's percentages followed by the reset value
`((completed + 1) / max 1 total) * 100`. -/
theorem runApp_jobEvents (n idx : Nat) (j : Job) (st : AppState) :
    (runApp st (jobEvents n idx j)).1.done_count = st.done_count + 1 ∧
    (runApp st (jobEvents n idx j)).1.total_count = st.total_count ∧
    (runApp st (jobEvents n idx j)).2 =
      (progressPcts (run_ffmpeg_with_progress j.probed j.lines j.rc j.stderrText)).map
        (fun pct =>
          (((st.done_count : ℚ) + pct / 100) / ((max 1 st.total_count : Nat) : ℚ)) * 100)
      ++ [(((st.done_count + 1 : Nat) : ℚ) / ((max 1 st.total_count : Nat) : ℚ)) * 100] := by
  obtain ⟨mid, ok, e, hrun, hmid⟩ := run_ffmpeg_block j.probed j.lines j.rc j.stderrText
  obtain ⟨h1, h2, h3⟩ := runApp_body mid { st with current_pct := 0, current_speed := none } hmid
  unfold jobEvents
  rw [hrun, runApp_cons, handle_msg_new_file, runApp_append, runApp_single_done]
  refine ⟨?_, ?_, ?_⟩
  · dsimp only
    rw [h1]
  · dsimp only
    rw [h2]
  · rw [progressPcts_append, progressPcts_done, List.append_nil, h3, h1, h2]
    rfl

/-- Scaling to percent of a ratio of at most one is at most 100. -/
theorem agg_le_100 {M x : ℚ} (hM : 0 < M) (h : x ≤ M) : x / M * 100 ≤ 100 := by
  have h1 : x / M ≤ 1 := (div_le_one hM).mpr h
  nlinarith

/-- The denominator `max 1 total` is positive as a rational. -/
theorem maxden_pos (n : Nat) : (0 : ℚ) < ((max 1 n : Nat) : ℚ) := by
  have h : 0 < max 1 n := Nat.lt_of_lt_of_le Nat.zero_lt_one (le_max_left 1 n)
  exact_mod_cast h

/-- Properties of the aggregate values one job block writes, with
completed count `i` of `n` jobs: the written values are non-decreasing
when the job's percentages are, they stay at most 100, the first one
is at least the pre-block aggregate `(i / max 1 n) * 100`, and the
last one is the reset value `((i+1) / max 1 n) * 100`. -/
theorem block_vals_props (i n : Nat) (pcts : List ℚ)
    (hchain : List.Chain' (· ≤ ·) pcts)
    (hbounds : ∀ pct ∈ pcts, 0 ≤ pct ∧ pct ≤ 100)
    (hin : i + 1 ≤ n) :
    List.Chain' (· ≤ ·)
      (pcts.map (fun pct => ((i : ℚ) + pct / 100) / ((max 1 n : Nat) : ℚ) * 100) ++
       [((i + 1 : Nat) : ℚ) / ((max 1 n : Nat) : ℚ) * 100]) ∧
    (∀ v ∈ pcts.map (fun pct => ((i : ℚ) + pct / 100) / ((max 1 n : Nat) : ℚ) * 100) ++
       [((i + 1 : Nat) : ℚ) / ((max 1 n : Nat) : ℚ) * 100], v ≤ 100) ∧
    (∀ v, (pcts.map (fun pct => ((i : ℚ) + pct / 100) / ((max 1 n : Nat) : ℚ) * 100) ++
       [((i + 1 : Nat) : ℚ) / ((max 1 n : Nat) : ℚ) * 100]).head? = some v →
       (i : ℚ) / ((max 1 n : Nat) : ℚ) * 100 ≤ v) ∧
    (pcts.map (fun pct => ((i : ℚ) + pct / 100) / ((max 1 n : Nat) : ℚ) * 100) ++
       [((i + 1 : Nat) : ℚ) / ((max 1 n : Nat) : ℚ) * 100]).getLast? =
      some (((i + 1 : Nat) : ℚ) / ((max 1 n : Nat) : ℚ) * 100) := by
  have hM : (0 : ℚ) < ((max 1 n : Nat) : ℚ) := maxden_pos n
  have hend_le_M : ((i + 1 : Nat) : ℚ) ≤ ((max 1 n : Nat) : ℚ) := by
    exact_mod_cast Nat.le_trans hin (le_max_right 1 n)
  have hf_le_end : ∀ pct ∈ pcts,
      ((i : ℚ) + pct / 100) / ((max 1 n : Nat) : ℚ) * 100 ≤
        ((i + 1 : Nat) : ℚ) / ((max 1 n : Nat) : ℚ) * 100 := by
    intro pct hpct
    have h100 := (hbounds pct hpct).2
    push_cast
    gcongr
    linarith
  have hf_le_100 : ∀ pct ∈ pcts,
      ((i : ℚ) + pct / 100) / ((max 1 n : Nat) : ℚ) * 100 ≤ 100 := by
    intro pct hpct
    exact le_trans (hf_le_end pct hpct) (agg_le_100 hM hend_le_M)
  refine ⟨?_, ?_, ?_, List.getLast?_concat _⟩
  · rw [List.chain'_append]
    refine ⟨?_, by simp, ?_⟩
    · rw [List.chain'_map]
      refine List.Chain'.imp ?_ hchain
      intro a b hab
      gcongr
    · intro x hx y hy
      simp only [List.head?_cons, Option.mem_def, Option.some.injEq] at hy
      subst hy
      rw [List.getLast?_map] at hx
      cases hlast : pcts.getLast? with
      | none => rw [hlast] at hx; simp at hx
      | some pct =>
        rw [hlast] at hx
        have hx2 : (((i : ℚ) + pct / 100) / ((max 1 n : Nat) : ℚ) * 100) = x :=
          Option.some.inj hx
        rw [← hx2]
        exact hf_le_end pct (mem_of_getLast?_eq hlast)
  · intro v hv
    rcases List.mem_append.mp hv with hv | hv
    · obtain ⟨pct, hpct, rfl⟩ := List.mem_map.mp hv
      exact hf_le_100 pct hpct
    · simp only [List.mem_singleton] at hv
      subst hv
      exact agg_le_100 hM hend_le_M
  · intro v hv
    cases pcts with
    | nil =>
      simp only [List.map_nil, List.nil_append, List.head?_cons, Option.some.injEq] at hv
      subst hv
      push_cast
      gcongr
      · linarith
    | cons p ps =>
      simp only [List.map_cons, List.cons_append, List.head?_cons, Option.some.injEq] at hv
      subst hv
      have h0 := (hbounds p (List.mem_cons_self p ps)).1
      gcongr
      linarith

/-- Aggregate values over the whole non-cancelled batch loop, from a
boundary state with `i` completed of `n` total: non-decreasing (given
per-job monotone percentages), at most 100, and never below the
boundary aggregate `(i / max 1 n) * 100`. -/
theorem convertLoop_agg (n : Nat) (jobs : List Job) :
    ∀ (i : Nat) (st : AppState), st.done_count = i → st.total_count = n →
      i + jobs.length ≤ n →
      (∀ j ∈ jobs, List.Chain' (· ≤ ·)
         (progressPcts (run_ffmpeg_with_progress j.probed j.lines j.rc j.stderrText))) →
      List.Chain' (· ≤ ·) ((runApp st (convertLoop n none i jobs)).2) ∧
      (∀ v ∈ (runApp st (convertLoop n none i jobs)).2, v ≤ 100) ∧
      (∀ v, ((runApp st (convertLoop n none i jobs)).2).head? = some v →
         (i : ℚ) / ((max 1 n : Nat) : ℚ) * 100 ≤ v) := by
  induction jobs with
  | nil =>
    intro i st hdone htot hlen hmono
    rw [convertLoop_nil]
    exact ⟨List.chain'_nil, by simp [runApp], by simp [runApp]⟩
  | cons j rest ih =>
    intro i st hdone htot hlen hmono
    rw [convertLoop_cons, show cancelledAt none i = false from rfl]
    simp only [Bool.false_eq_true, if_false]
    rw [runApp_append]
    obtain ⟨hb1, hb2, hb3⟩ := runApp_jobEvents n (i + 1) j st
    simp only [hdone, htot] at hb1 hb2 hb3
    obtain ⟨hr1, hr2, hr3⟩ := ih (i + 1) (runApp st (jobEvents n (i + 1) j)).1 hb1 hb2
      (by simp only [List.length_cons] at hlen; omega)
      (fun j' hj' => hmono j' (List.mem_cons_of_mem _ hj'))
    have hpb := run_ffmpeg_pct_bounds j.probed j.lines j.rc j.stderrText
    have hchain := hmono j (List.mem_cons_self j rest)
    have hlen1 : i + 1 ≤ n := by simp only [List.length_cons] at hlen; omega
    obtain ⟨hc1, hc2, hc3, hc4⟩ := block_vals_props i n
      (progressPcts (run_ffmpeg_with_progress j.probed j.lines j.rc j.stderrText))
      hchain hpb hlen1
    have hne : (progressPcts (run_ffmpeg_with_progress j.probed j.lines j.rc
        j.stderrText)).map
          (fun pct => ((i : ℚ) + pct / 100) / ((max 1 n : Nat) : ℚ) * 100) ++
        [((i + 1 : Nat) : ℚ) / ((max 1 n : Nat) : ℚ) * 100] ≠ [] := by
      simp
    dsimp only
    rw [hb3]
    refine ⟨?_, ?_, ?_⟩
    · rw [List.chain'_append]
      refine ⟨hc1, hr1, ?_⟩
      intro x hx y hy
      rw [hc4] at hx
      have hx2 : x = ((i + 1 : Nat) : ℚ) / ((max 1 n : Nat) : ℚ) * 100 :=
        (Option.some.inj hx).symm
      rw [hx2]
      exact hr3 y hy
    · intro v hv
      rcases List.mem_append.mp hv with hv | hv
      · exact hc2 v hv
      · exact hr2 v hv
    · intro v hv
      rw [List.head?_append_of_ne_nil _ hne] at hv
      have := hc3 v hv
      have hstep : (i : ℚ) / ((max 1 n : Nat) : ℚ) * 100 ≤
          (i : ℚ) / ((max 1 n : Nat) : ℚ) * 100 := le_refl _
      exact this

/-! ### C2 -/

/-- C2 counterexample: with a single job of known duration 10 s whose
stream reports 2 s and then 1 s (an out-of-order `out_time_ms`
sequence, which nothing in the code rejects), the successive aggregate
values are 20 %, 10 %, 100 % — not monotonically non-decreasing, and
the per-file samples decrease before the terminal event. -/
theorem C2_counterexample :
    (runApp (initApp 1) (convert_all
       [⟨"a.mp4", 10, ["out_time_ms=2000000", "out_time_ms=1000000"], 0, ""⟩] none)).2 =
      [20, 10, 100] ∧
    ¬ List.Chain' (· ≤ ·) ((runApp (initApp 1) (convert_all
       [⟨"a.mp4", 10, ["out_time_ms=2000000", "out_time_ms=1000000"], 0, ""⟩] none)).2) := by
  have heq : (runApp (initApp 1) (convert_all
       [⟨"a.mp4", 10, ["out_time_ms=2000000", "out_time_ms=1000000"], 0, ""⟩] none)).2 =
      [20, 10, 100] := by
    with_unfolding_all rfl
  refine ⟨heq, ?_⟩
  rw [heq]
  intro h
  rw [List.chain'_cons] at h
  have h20 : (20 : ℚ) ≤ 10 := h.1
  norm_num at h20

/-- C2 amended: for a non-cancelled run in which each job's per-file
percentage samples are non-decreasing (as they are when the child's
`out_time_ms` values are non-decreasing), the successively emitted
aggregate values are monotonically non-decreasing and never exceed
100 % (fraction 1.0); moreover each in-flight value equals
`((completed + pct/100) / max 1 total) * 100` and the value written at
a terminal event is reset to exactly `((completed + 1) / max 1 total) * 100`. -/
theorem C2_aggregate_monotone (jobs : List Job)
    (hmono : ∀ j ∈ jobs, List.Chain' (· ≤ ·)
       (progressPcts (run_ffmpeg_with_progress j.probed j.lines j.rc j.stderrText))) :
    List.Chain' (· ≤ ·) ((runApp (initApp jobs.length) (convert_all jobs none)).2) ∧
    (∀ v ∈ (runApp (initApp jobs.length) (convert_all jobs none)).2, v ≤ 100) ∧
    (∀ (st : AppState) (pct o : ℚ) (sp : Option String) (eta : Option ℚ),
       (handle_msg st (Msg.file_progress pct o sp eta)).2 =
         some ((((st.done_count : ℚ) + pct / 100) / ((max 1 st.total_count : Nat) : ℚ)) * 100)) ∧
    (∀ (st : AppState) (ok : Bool) (err : String),
       (handle_msg st (Msg.file_done ok err)).2 =
         some ((((st.done_count + 1 : Nat) : ℚ) / ((max 1 st.total_count : Nat) : ℚ)) * 100)) := by
  obtain ⟨h1, h2, h3⟩ := convertLoop_agg jobs.length jobs 0 (initApp jobs.length) rfl rfl
    (by omega) hmono
  unfold convert_all
  rw [runApp_append]
  have hall : ∀ st : AppState, (runApp st [Msg.all_done]).2 = [] := fun st => rfl
  refine ⟨?_, ?_, fun st pct o sp eta => rfl, fun st ok err => rfl⟩
  · dsimp only
    rw [hall, List.append_nil]
    exact h1
  · intro v hv
    dsimp only at hv
    rw [hall, List.append_nil] at hv
    exact h2 v hv

/-- C2 witness: one 10-second job reporting 1 s then 2 s — the
per-file samples are non-decreasing, so the aggregate sequence is
non-decreasing. -/
theorem C2_witness :
    List.Chain' (· ≤ ·) ((runApp (initApp 1) (convert_all
      [⟨"a.mp4", 10, ["out_time_ms=1000000", "out_time_ms=2000000"], 0, ""⟩] none)).2) :=
  (C2_aggregate_monotone [⟨"a.mp4", 10, ["out_time_ms=1000000", "out_time_ms=2000000"], 0, ""⟩]
    (by
      intro j hj
      simp only [List.mem_singleton] at hj
      subst hj
      dsimp only
      have hpc : progressPcts (run_ffmpeg_with_progress 10
          ["out_time_ms=1000000", "out_time_ms=2000000"] 0 "") = [10, 20] := by
        with_unfolding_all rfl
      rw [hpc, List.chain'_cons]
      exact ⟨by norm_num, List.chain'_singleton 20⟩)).1

end Mp4amp3
